import Mathlib

/-!
Verification of the TF-IDF search engine (`tfidf-search/scripts/tfidf_search.py`).

The script wires together a tokenizer, vocabulary builder, idf weight model,
vectorizer and ranker (the vectorization core is supplied by an external
library; its behaviour is modelled here from the specification, §4.1–§4.5),
plus the ranking and validation logic that appears literally in the script
(`search`, lines 73–88, and `main`, lines 112–163).

Numbers are modelled by exact reals (the script computes with floating point);
string-level computations (tokenization, vocabulary construction, validation)
are kept computable.
-/

namespace TfIdf

/-! ### Stable insertion sort

Models the deterministic, stable orderings used by the pipeline: numpy's
`argsort` (ascending by value, equal values keep their original relative
order) and the vocabulary builder's deterministic term ordering. -/

/-- Insert `x` into `l`, placing it before the first element `y` with
`le x y`; with a total comparator this yields a stable insertion sort. -/
def insertSorted {α : Type} (le : α → α → Bool) (x : α) : List α → List α
  | [] => [x]
  | y :: l => if le x y then x :: y :: l else y :: insertSorted le x l

/-- Stable insertion sort with comparator `le` (ascending). -/
def sortBy {α : Type} (le : α → α → Bool) : List α → List α
  | [] => []
  | x :: l => insertSorted le x (sortBy le l)

/-! ### Tokenizer (spec §4.1)

The claims hold for an arbitrary tokenizer `tok : String → List String`
(the exact stop-word list and word-boundary rules are explicitly left
open by the specification), so the pipeline below is parameterized by it.
A concrete example tokenizer is provided for evaluating the pipeline on
concrete inputs. -/

/-- Split a character stream into maximal alphanumeric words; `acc` holds the
characters of the word currently being read, in reverse. -/
def splitWords : List Char → List Char → List (List Char)
  | [], acc => if acc.isEmpty then [] else [acc.reverse]
  | c :: rest, acc =>
    if c.isAlphanum then splitWords rest (c :: acc)
    else if acc.isEmpty then splitWords rest []
    else acc.reverse :: splitWords rest []

/-- Modelled from the spec: a small fixed English stop-word set standing in
for the library's built-in list (spec §4.1 and §9 leave the exact list
open as an implementation choice of the external collaborator). -/
def stopWordsEx : List String := ["the", "a", "an", "and", "is", "of", "to", "in", "it", "on"]

/-- Modelled from the spec (§4.1): an example tokenizer — lowercase, split on
non-alphanumeric boundaries, keep words of length at least two, discard
stop words, and emit unigrams followed by adjacent-pair bigrams. -/
def tokenizeEx (s : String) : List String :=
  let ws := (splitWords (s.data.map Char.toLower) []).map (fun w => String.mk w)
  let kept := ws.filter (fun w => decide (2 ≤ w.length) && !(stopWordsEx.contains w))
  kept ++ List.zipWith (fun a b => a ++ " " ++ b) kept kept.tail

/-- Python's `str.strip()`: remove leading and trailing whitespace
(used by `main` to reject blank queries, line 136). -/
def pyStrip (s : String) : String :=
  String.mk (((s.data.dropWhile Char.isWhitespace).reverse.dropWhile Char.isWhitespace).reverse)

/-! ### VocabularyBuilder (spec §4.2) -/

/-- Distinct elements of `l` in first-seen order. -/
def distinctFirstSeen (l : List String) : List String :=
  l.foldl (fun acc x => if x ∈ acc then acc else acc ++ [x]) []

/-- Vocabulary size cap (`max_features=10000`, script line 61). -/
def maxFeatures : Nat := 10000

/-- Modelled from the spec (§4.2): the distinct terms retained for the
vocabulary — all of them when at most `maxFeatures` survive, otherwise the
`maxFeatures` most frequent terms (stably sorted by corpus-wide occurrence
count descending, ties keeping first-seen order). -/
def vocabKept (tdocs : List (List String)) : List String :=
  if (distinctFirstSeen tdocs.flatten).length ≤ maxFeatures then distinctFirstSeen tdocs.flatten
  else (sortBy (fun a b => decide (tdocs.flatten.count b ≤ tdocs.flatten.count a))
    (distinctFirstSeen tdocs.flatten)).take maxFeatures

/-- Modelled from the spec (§4.2): the retained terms with ids assigned in
ascending lexicographic order. -/
def vocabulary (tdocs : List (List String)) : List String :=
  sortBy (fun a b => decide (a ≤ b)) (vocabKept tdocs)

/-- Number of documents of the corpus that contain term `t` at least once. -/
def docFreq (tdocs : List (List String)) (t : String) : Nat :=
  tdocs.countP (fun d => d.contains t)

/-! ### WeightModel (spec §4.3) -/

/-- Modelled from the spec (§4.3): smoothed inverse document frequency,
`ln((1 + N) / (1 + df)) + 1`, for a corpus of `n` documents. -/
noncomputable def idfVal (n df : Nat) : ℝ :=
  Real.log ((1 + (n : ℝ)) / (1 + (df : ℝ))) + 1

/-- The idf vector: one smoothed idf weight per vocabulary term. -/
noncomputable def idfVector (tdocs : List (List String)) (vocab : List String) : List ℝ :=
  vocab.map (fun t => idfVal tdocs.length (docFreq tdocs t))

/-! ### Vectorizer (spec §4.4) -/

/-- Sum of squared entries of a vector. -/
noncomputable def l2normSq (v : List ℝ) : ℝ := (v.map (fun x => x ^ 2)).sum

/-- Euclidean norm of a vector. -/
noncomputable def l2norm (v : List ℝ) : ℝ := Real.sqrt (l2normSq v)

/-- Modelled from the spec (§4.4): divide every entry by the Euclidean norm
of the vector; an all-zero vector stays the zero vector (each entry is
`0 / 0 = 0` in the real-number model). -/
noncomputable def normalize (v : List ℝ) : List ℝ := v.map (fun x => x / l2norm v)

/-- Modelled from the spec (§4.4): raw weight per vocabulary term
(term frequency times idf weight), in vocabulary-id order. -/
noncomputable def rawVec (vocab : List String) (idfs : List ℝ) (d : List String) : List ℝ :=
  List.zipWith (fun t w => (d.count t : ℝ) * w) vocab idfs

/-- Modelled from the spec (§4.4): the TF-IDF vector of a token sequence,
L2-normalized. -/
noncomputable def transform (vocab : List String) (idfs : List ℝ) (d : List String) : List ℝ :=
  normalize (rawVec vocab idfs d)

/-- Dot product of two vectors. -/
noncomputable def dot (u v : List ℝ) : ℝ := (List.zipWith (fun a b => a * b) u v).sum

/-- Cosine similarity: the dot product of the two normalized vectors, a zero
vector on either side normalizing to the zero vector (similarity 0). -/
noncomputable def cosineSim (u v : List ℝ) : ℝ := dot (normalize u) (normalize v)

/-! ### Index construction and the ranking pipeline -/

/-- Error kinds of the pipeline (spec §7): precondition violations surfaced
to the caller; the script exits with a diagnostic in each of these cases
(lines 132–138 of `main`, and the error paths of `create_tfidf_index`). -/
inductive AppError where
  | invalidTopK
  | emptyQuery
  | emptyCorpus
  | emptyVocabulary
  deriving DecidableEq

/-- The immutable index: frozen vocabulary, idf weights, and one normalized
TF-IDF vector per document in original order (spec §3, `Index`). -/
structure TfIdfIndex where
  vocab : List String
  idfs : List ℝ
  matrix : List (List ℝ)

/-- Tokenized corpus: the tokenizer applied to every document in order. -/
def tdocsOf (tok : String → List String) (docs : List String) : List (List String) :=
  docs.map tok

/-- The frozen vocabulary of a corpus. -/
def vocabOf (tok : String → List String) (docs : List String) : List String :=
  vocabulary (tdocsOf tok docs)

/-- The frozen idf weights of a corpus. -/
noncomputable def idfsOf (tok : String → List String) (docs : List String) : List ℝ :=
  idfVector (tdocsOf tok docs) (vocabOf tok docs)

/-- The document-vector matrix: one L2-normalized TF-IDF row per document,
preserving original document order (`fit_transform`, script line 66). -/
noncomputable def matrixOf (tok : String → List String) (docs : List String) : List (List ℝ) :=
  (tdocsOf tok docs).map (transform (vocabOf tok docs) (idfsOf tok docs))

/-- Index construction (`create_tfidf_index`, script lines 57–70): fails on an
empty corpus or an empty vocabulary, otherwise produces the frozen index. -/
noncomputable def createTfidfIndex (tok : String → List String) (docs : List String) :
    Except AppError TfIdfIndex :=
  if docs.isEmpty then .error .emptyCorpus
  else if (vocabOf tok docs).isEmpty then .error .emptyVocabulary
  else .ok ⟨vocabOf tok docs, idfsOf tok docs, matrixOf tok docs⟩

/-- The query vector: the query tokenized and vectorized against the frozen
vocabulary and idf weights (`vectorizer.transform`, script line 77). -/
noncomputable def queryVec (tok : String → List String) (docs : List String) (q : String) :
    List ℝ :=
  transform (vocabOf tok docs) (idfsOf tok docs) (tok q)

/-- Cosine similarity of every document row against the query vector
(`cosine_similarity(X, query_vec).flatten()`, script line 80). -/
noncomputable def simsFor (tok : String → List String) (docs : List String) (q : String) :
    List ℝ :=
  (matrixOf tok docs).map (fun dv => cosineSim dv (queryVec tok docs q))

/-- Indices `0, …, n-1` sorted ascending by score: the model of
`similarities.argsort()` (script line 83). The model sorts stably (equal
values keep their original relative order), which is exact for numpy's
default sort on small arrays (its insertion-sort regime) but stronger than
numpy's documented contract on large ones, whose default quicksort may
permute equal values arbitrarily; properties of the program in general must
therefore not depend on the model's tie order, only on it being some
ascending sort. -/
noncomputable def argsort (score : Nat → ℝ) (l : List Nat) : List Nat :=
  sortBy (fun i j => decide (score i ≤ score j)) l

/-- The last `k` entries of the ascending argsort, reversed: the model of
`similarities.argsort()[-top_k:][::-1]` (script line 83). -/
noncomputable def topIndices (sims : List ℝ) (k : Nat) : List Nat :=
  ((argsort (fun i => sims.getD i 0) (List.range sims.length)).drop (sims.length - k)).reverse

/-- The value returned by `search` (script line 85): the top indices paired
with their similarity scores. -/
noncomputable def searchRes (sims : List ℝ) (k : Nat) : List (Nat × ℝ) :=
  (topIndices sims k).map (fun i => (i, sims.getD i 0))

/-- The ranked output for a corpus, query and requested `topK`: `main` clamps
`top_k` to the corpus size (line 153) before calling `search`. -/
noncomputable def searchOutput (tok : String → List String) (docs : List String) (q : String)
    (topK : ℤ) : List (Nat × ℝ) :=
  searchRes (simsFor tok docs q) (min topK.toNat docs.length)

/-- The end-to-end pipeline of `main` (script lines 112–163): validate `topK`
and the query, build the index, then rank. -/
noncomputable def runSearch (tok : String → List String) (docs : List String) (q : String)
    (topK : ℤ) : Except AppError (List (Nat × ℝ)) :=
  if topK < 1 then .error .invalidTopK
  else if pyStrip q = "" then .error .emptyQuery
  else
    match createTfidfIndex tok docs with
    | .error e => .error e
    | .ok _ => .ok (searchOutput tok docs q topK)

/-! ### Lemmas about the stable insertion sort -/

/-- Inserting an element yields a permutation of consing it. -/
theorem insertSorted_perm {α : Type} (le : α → α → Bool) (x : α) (l : List α) :
    List.Perm (insertSorted le x l) (x :: l) := by
  induction l with
  | nil => simp [insertSorted]
  | cons y t ih =>
    rw [insertSorted]
    by_cases h : le x y
    · simp [h]
    · simp only [h, if_false]
      exact ((ih.cons y).trans (List.Perm.swap x y t))

/-- Sorting yields a permutation of the input. -/
theorem sortBy_perm {α : Type} (le : α → α → Bool) (l : List α) :
    List.Perm (sortBy le l) l := by
  induction l with
  | nil => simp [sortBy]
  | cons x t ih => exact (insertSorted_perm le x (sortBy le t)).trans (ih.cons x)

/-- Sorting preserves length. -/
theorem sortBy_length {α : Type} (le : α → α → Bool) (l : List α) :
    (sortBy le l).length = l.length :=
  (sortBy_perm le l).length_eq

/-- Sorting preserves membership. -/
theorem sortBy_mem {α : Type} (le : α → α → Bool) (l : List α) (x : α) :
    x ∈ sortBy le l ↔ x ∈ l :=
  (sortBy_perm le l).mem_iff

/-- The strict ranking relation on indices: strictly smaller score, or equal
scores with the smaller original index first (the order produced by a
stable ascending sort of distinct indices). -/
def RankRel (score : Nat → ℝ) (a b : Nat) : Prop :=
  score a < score b ∨ (score a = score b ∧ a < b)

/-- A step of the ranking relation weakly increases the score. -/
theorem RankRel.score_le {score : Nat → ℝ} {a b : Nat} (h : RankRel score a b) :
    score a ≤ score b := by
  rcases h with h | ⟨h, _⟩
  · exact le_of_lt h
  · exact le_of_eq h

/-- Inserting an index larger than every index of a ranking-sorted list keeps
the list sorted for the ranking relation. -/
theorem insertSorted_rankRel (score : Nat → ℝ) (x : Nat) (l : List Nat)
    (hl : l.Pairwise (RankRel score)) (hx : ∀ y ∈ l, x < y) :
    (insertSorted (fun i j => decide (score i ≤ score j)) x l).Pairwise (RankRel score) := by
  induction l with
  | nil => simp [insertSorted]
  | cons y t ih =>
    rw [List.pairwise_cons] at hl
    rw [insertSorted]
    by_cases h : score x ≤ score y
    · rw [if_pos (by simpa using h)]
      refine List.pairwise_cons.2 ⟨?_, List.pairwise_cons.2 hl⟩
      intro z hz
      rcases List.mem_cons.1 hz with rfl | hz
      · rcases lt_or_eq_of_le h with h | h
        · exact Or.inl h
        · exact Or.inr ⟨h, hx z (List.mem_cons_self z t)⟩
      · have hyz : score y ≤ score z := (hl.1 z hz).score_le
        rcases lt_or_eq_of_le (le_trans h hyz) with h | h
        · exact Or.inl h
        · exact Or.inr ⟨h, hx z (List.mem_cons_of_mem y hz)⟩
    · rw [if_neg (by simpa using h)]
      push_neg at h
      refine List.pairwise_cons.2 ⟨?_, ih hl.2 (fun y hy => hx y (List.mem_cons_of_mem _ hy))⟩
      intro z hz
      rcases List.mem_cons.1 ((insertSorted_perm _ x t).mem_iff.1 hz) with rfl | hz
      · exact Or.inl h
      · exact hl.1 z hz

/-- The ascending stable argsort of a strictly increasing index list is
sorted for the ranking relation: ascending scores, with equal scores in
ascending original-index order. -/
theorem argsort_pairwise (score : Nat → ℝ) (l : List Nat) (hl : l.Pairwise (· < ·)) :
    (argsort score l).Pairwise (RankRel score) := by
  induction l with
  | nil => simp [argsort, sortBy]
  | cons x t ih =>
    rw [List.pairwise_cons] at hl
    rw [argsort, sortBy]
    exact insertSorted_rankRel score x (sortBy _ t) (ih hl.2)
      (fun y hy => hl.1 y ((sortBy_perm _ t).mem_iff.1 hy))

/-- The argsort is a permutation of its input index list. -/
theorem argsort_perm (score : Nat → ℝ) (l : List Nat) : List.Perm (argsort score l) l :=
  sortBy_perm _ l

/-- In a list sorted for the weak score order, the last element has the
largest score. -/
theorem score_le_of_getLast? (score : Nat → ℝ) (l : List Nat)
    (hl : l.Pairwise (fun a b => score a ≤ score b)) {z : Nat}
    (hz : l.getLast? = some z) : ∀ y ∈ l, score y ≤ score z := by
  induction l with
  | nil => simp
  | cons a t ih =>
    rw [List.pairwise_cons] at hl
    match t, hz with
    | [], hz =>
      intro y hy
      rcases List.mem_cons.1 hy with rfl | hy
      · simp only [List.getLast?_singleton, Option.some.injEq] at hz
        exact le_of_eq (by rw [hz])
      · simp at hy
    | b :: t2, hz =>
      rw [List.getLast?_cons_cons] at hz
      intro y hy
      have hzmem : z ∈ b :: t2 := by
        have := List.getLast?_eq_getElem? (b :: t2)
        rw [hz] at this
        exact List.getElem?_mem this.symm
      rcases List.mem_cons.1 hy with rfl | hy
      · exact hl.1 z hzmem
      · exact ih hl.2 hz y hy

/-! ### Lemmas about norms, normalization and dot products -/

/-- The sum of squares of a vector is non-negative. -/
theorem l2normSq_nonneg (v : List ℝ) : 0 ≤ l2normSq v := by
  refine List.sum_nonneg ?_
  intro x hx
  rcases List.mem_map.1 hx with ⟨y, _, rfl⟩
  exact sq_nonneg y

/-- The sum of squares vanishes exactly on all-zero vectors. -/
theorem l2normSq_eq_zero_iff (v : List ℝ) : l2normSq v = 0 ↔ ∀ x ∈ v, x = 0 := by
  induction v with
  | nil => simp [l2normSq]
  | cons x t ih =>
    have hx : (0 : ℝ) ≤ x ^ 2 := sq_nonneg x
    have ht : 0 ≤ l2normSq t := l2normSq_nonneg t
    have hcons : l2normSq (x :: t) = x ^ 2 + l2normSq t := by simp [l2normSq]
    rw [hcons, add_eq_zero_iff_of_nonneg hx ht]
    simp only [pow_eq_zero_iff (two_ne_zero), List.mem_cons]
    constructor
    · rintro ⟨h1, h2⟩ y (rfl | hy)
      · exact h1
      · exact ih.1 h2 y hy
    · intro h
      exact ⟨h x (Or.inl rfl), ih.2 (fun y hy => h y (Or.inr hy))⟩

/-- The Euclidean norm is non-negative. -/
theorem l2norm_nonneg (v : List ℝ) : 0 ≤ l2norm v := Real.sqrt_nonneg _

/-- The Euclidean norm vanishes exactly on all-zero vectors. -/
theorem l2norm_eq_zero_iff (v : List ℝ) : l2norm v = 0 ↔ ∀ x ∈ v, x = 0 := by
  rw [l2norm, Real.sqrt_eq_zero (l2normSq_nonneg v)]
  exact l2normSq_eq_zero_iff v

/-- Normalization preserves length. -/
theorem normalize_length (v : List ℝ) : (normalize v).length = v.length := by
  simp [normalize]

/-- The squared norm of a normalized vector: `1` when the vector is non-zero,
`0` when it is the zero vector (written as the single quotient `S / S`). -/
theorem l2normSq_normalize (v : List ℝ) :
    l2normSq (normalize v) = l2normSq v / l2normSq v := by
  rw [l2normSq, normalize, List.map_map]
  have h1 : ((fun x => x ^ 2) ∘ fun x => x / l2norm v) =
      fun x => x ^ 2 * (l2normSq v)⁻¹ := by
    funext x
    simp only [Function.comp_apply, div_eq_mul_inv, mul_pow, inv_pow, l2norm,
      Real.sq_sqrt (l2normSq_nonneg v)]
  rw [h1, List.sum_map_mul_right, ← l2normSq, div_eq_mul_inv]

/-- The squared norm of a normalized vector is at most `1`. -/
theorem l2normSq_normalize_le_one (v : List ℝ) : l2normSq (normalize v) ≤ 1 := by
  rw [l2normSq_normalize]
  rcases eq_or_ne (l2normSq v) 0 with h | h
  · simp [h]
  · rw [div_self h]

/-- A vector with a non-zero entry normalizes to a unit vector. -/
theorem l2norm_normalize_of_ne_zero {v : List ℝ} (h : ∃ x ∈ v, x ≠ 0) :
    l2norm (normalize v) = 1 := by
  have hS : l2normSq v ≠ 0 := by
    rw [Ne, l2normSq_eq_zero_iff]
    rcases h with ⟨x, hx, hx0⟩
    exact fun hall => hx0 (hall x hx)
  rw [l2norm, l2normSq_normalize, div_self hS, Real.sqrt_one]

/-- An all-zero vector normalizes to the all-zero vector of the same length. -/
theorem normalize_of_all_zero {v : List ℝ} (h : ∀ x ∈ v, x = 0) :
    normalize v = List.replicate v.length 0 := by
  rw [List.eq_replicate_iff]
  refine ⟨normalize_length v, ?_⟩
  intro b hb
  rcases List.mem_map.1 hb with ⟨x, hx, rfl⟩
  rw [h x hx, zero_div]

/-- Normalization preserves non-negativity of the entries. -/
theorem normalize_nonneg {v : List ℝ} (h : ∀ x ∈ v, 0 ≤ x) :
    ∀ y ∈ normalize v, 0 ≤ y := by
  intro y hy
  rcases List.mem_map.1 hy with ⟨x, hx, rfl⟩
  exact div_nonneg (h x hx) (l2norm_nonneg v)

/-- The dot product of entrywise non-negative vectors is non-negative. -/
theorem dot_nonneg {u v : List ℝ} (hu : ∀ x ∈ u, 0 ≤ x) (hv : ∀ y ∈ v, 0 ≤ y) :
    0 ≤ dot u v := by
  refine List.sum_nonneg ?_
  intro x hx
  rcases List.mem_iff_getElem.1 hx with ⟨i, hi, rfl⟩
  rw [List.getElem_zipWith]
  have hlen := List.length_zipWith (fun a b : ℝ => a * b) u v
  have hil : i < u.length := by omega
  have hir : i < v.length := by omega
  exact mul_nonneg (hu _ (List.getElem_mem hil)) (hv _ (List.getElem_mem hir))

/-- The dot product against an all-zero right factor vanishes. -/
theorem dot_zero_right {v : List ℝ} (u : List ℝ) (h : ∀ y ∈ v, y = 0) : dot u v = 0 := by
  induction u generalizing v with
  | nil => simp [dot]
  | cons x u2 ih =>
    cases v with
    | nil => simp [dot]
    | cons y v2 =>
      have hy : y = 0 := h y (List.mem_cons_self y v2)
      have h2 : dot u2 v2 = 0 := ih (fun z hz => h z (List.mem_cons_of_mem y hz))
      simp only [dot, List.zipWith_cons_cons, List.sum_cons, hy, mul_zero, zero_add] at h2 ⊢
      exact h2

/-- The dot product with an all-zero left factor vanishes. -/
theorem dot_zero_left {u : List ℝ} (v : List ℝ) (h : ∀ x ∈ u, x = 0) : dot u v = 0 := by
  induction u generalizing v with
  | nil => simp [dot]
  | cons x u2 ih =>
    cases v with
    | nil => simp [dot]
    | cons y v2 =>
      have hx : x = 0 := h x (List.mem_cons_self x u2)
      have h2 : dot u2 v2 = 0 := ih v2 (fun z hz => h z (List.mem_cons_of_mem x hz))
      simp only [dot, List.zipWith_cons_cons, List.sum_cons, hx, zero_mul, zero_add] at h2 ⊢
      exact h2

/-- From a square bound between non-negative quantities to a plain bound. -/
theorem le_of_sq_le_sq {a b : ℝ} (ha : 0 ≤ a) (h : b ^ 2 ≤ a ^ 2) : b ≤ a := by
  nlinarith [sq_nonneg (a - b), sq_nonneg (a + b)]

/-- Cauchy–Schwarz for list dot products. -/
theorem dot_sq_le (u v : List ℝ) : dot u v ^ 2 ≤ l2normSq u * l2normSq v := by
  induction u generalizing v with
  | nil => simp [dot, l2normSq]
  | cons x u2 ih =>
    cases v with
    | nil => simp [dot, l2normSq]
    | cons y v2 =>
      have hU : 0 ≤ l2normSq u2 := l2normSq_nonneg u2
      have hV : 0 ≤ l2normSq v2 := l2normSq_nonneg v2
      have hIH : dot u2 v2 ^ 2 ≤ l2normSq u2 * l2normSq v2 := ih v2
      have hdot : dot (x :: u2) (y :: v2) = x * y + dot u2 v2 := by
        simp [dot, List.zipWith_cons_cons]
      have hSu : l2normSq (x :: u2) = x ^ 2 + l2normSq u2 := by simp [l2normSq]
      have hSv : l2normSq (y :: v2) = y ^ 2 + l2normSq v2 := by simp [l2normSq]
      rw [hdot, hSu, hSv]
      set D := dot u2 v2 with hD
      set U := l2normSq u2 with hUdef
      set V := l2normSq v2 with hVdef
      have ha : 0 ≤ x ^ 2 * V + y ^ 2 * U := by positivity
      have h2 : (2 * (x * y) * D) ^ 2 ≤ (x ^ 2 * V + y ^ 2 * U) ^ 2 := by
        nlinarith [sq_nonneg (x ^ 2 * V - y ^ 2 * U), sq_nonneg (x * y),
          mul_le_mul_of_nonneg_left hIH (sq_nonneg (2 * (x * y)))]
      have h3 : 2 * (x * y) * D ≤ x ^ 2 * V + y ^ 2 * U := le_of_sq_le_sq ha h2
      nlinarith [hIH, h3]

/-- The cosine similarity of any two vectors is at most `1`. -/
theorem cosineSim_le_one (u v : List ℝ) : cosineSim u v ≤ 1 := by
  have h := dot_sq_le (normalize u) (normalize v)
  have hu := l2normSq_normalize_le_one u
  have hv := l2normSq_normalize_le_one v
  have hu0 := l2normSq_nonneg (normalize u)
  have hv0 := l2normSq_nonneg (normalize v)
  refine le_of_sq_le_sq zero_le_one ?_
  have : l2normSq (normalize u) * l2normSq (normalize v) ≤ 1 := by nlinarith
  calc cosineSim u v ^ 2 ≤ l2normSq (normalize u) * l2normSq (normalize v) := h
    _ ≤ 1 := this
    _ = 1 ^ 2 := by norm_num

/-- The cosine similarity of entrywise non-negative vectors is non-negative. -/
theorem cosineSim_nonneg {u v : List ℝ} (hu : ∀ x ∈ u, 0 ≤ x) (hv : ∀ y ∈ v, 0 ≤ y) :
    0 ≤ cosineSim u v :=
  dot_nonneg (normalize_nonneg hu) (normalize_nonneg hv)

/-- A zero vector on either side gives cosine similarity `0`. -/
theorem cosineSim_zero_of_zero {u v : List ℝ}
    (h : (∀ x ∈ u, x = 0) ∨ (∀ y ∈ v, y = 0)) : cosineSim u v = 0 := by
  rcases h with h | h
  · rw [cosineSim]
    refine dot_zero_left _ ?_
    intro y hy
    rcases List.mem_map.1 hy with ⟨x, hx, rfl⟩
    rw [h x hx, zero_div]
  · rw [cosineSim]
    refine dot_zero_right _ ?_
    intro y hy
    rcases List.mem_map.1 hy with ⟨x, hx, rfl⟩
    rw [h x hx, zero_div]

/-! ### Lemmas about the pipeline -/

/-- Smoothed idf weights are at least `1` whenever `df ≤ n`. -/
theorem one_le_idfVal {n df : Nat} (h : df ≤ n) : 1 ≤ idfVal n df := by
  rw [idfVal]
  have h1 : (0 : ℝ) < 1 + (df : ℝ) := by positivity
  have h2 : (1 : ℝ) + (df : ℝ) ≤ 1 + (n : ℝ) := by
    have := (Nat.cast_le (α := ℝ)).2 h
    linarith
  have h3 : (1 : ℝ) ≤ (1 + (n : ℝ)) / (1 + (df : ℝ)) := (one_le_div h1).2 h2
  have := Real.log_nonneg h3
  linarith

/-- Every entry of the frozen idf vector is at least `1`. -/
theorem idfsOf_one_le (tok : String → List String) (docs : List String) :
    ∀ w ∈ idfsOf tok docs, 1 ≤ w := by
  intro w hw
  rcases List.mem_map.1 hw with ⟨t, _, rfl⟩
  exact one_le_idfVal (List.countP_le_length _)

/-- Raw TF-IDF vectors have non-negative entries when the idf weights do. -/
theorem rawVec_nonneg {idfs : List ℝ} (vocab : List String) (d : List String)
    (h : ∀ w ∈ idfs, 0 ≤ w) : ∀ x ∈ rawVec vocab idfs d, 0 ≤ x := by
  intro x hx
  simp only [rawVec] at hx
  rcases List.mem_iff_getElem.1 hx with ⟨i, hi, rfl⟩
  rw [List.getElem_zipWith]
  simp only [List.length_zipWith, lt_min_iff] at hi
  exact mul_nonneg (by positivity) (h _ (List.getElem_mem hi.2))

/-- Vectorized token sequences have non-negative entries when the idf
weights do. -/
theorem transform_nonneg {idfs : List ℝ} (vocab : List String) (d : List String)
    (h : ∀ w ∈ idfs, 0 ≤ w) : ∀ y ∈ transform vocab idfs d, 0 ≤ y :=
  normalize_nonneg (rawVec_nonneg vocab d h)

/-- Every similarity score of the pipeline lies in `[0, 1]`. -/
theorem simsFor_bounds (tok : String → List String) (docs : List String) (q : String) :
    ∀ s ∈ simsFor tok docs q, 0 ≤ s ∧ s ≤ 1 := by
  intro s hs
  rcases List.mem_map.1 hs with ⟨dv, hdv, rfl⟩
  rcases List.mem_map.1 hdv with ⟨d, _, rfl⟩
  have hidf : ∀ w ∈ idfsOf tok docs, 0 ≤ w :=
    fun w hw => le_trans zero_le_one (idfsOf_one_le tok docs w hw)
  refine ⟨cosineSim_nonneg (transform_nonneg _ _ hidf) (transform_nonneg _ _ hidf), ?_⟩
  exact cosineSim_le_one _ _

/-- There are exactly as many similarity scores as documents. -/
theorem simsFor_length (tok : String → List String) (docs : List String) (q : String) :
    (simsFor tok docs q).length = docs.length := by
  simp [simsFor, matrixOf, tdocsOf]

/-- The argsort of the index range has as many entries as documents. -/
theorem argsort_range_length (score : Nat → ℝ) (n : Nat) :
    (argsort score (List.range n)).length = n :=
  (argsort_perm score (List.range n)).length_eq.trans (List.length_range n)

/-- The selected index list has exactly `min k n` entries. -/
theorem topIndices_length (sims : List ℝ) (k : Nat) :
    (topIndices sims k).length = min k sims.length := by
  rw [topIndices, List.length_reverse, List.length_drop, argsort_range_length]
  omega

/-- Every selected index is a valid document position. -/
theorem topIndices_mem {sims : List ℝ} {k i : Nat} (hi : i ∈ topIndices sims k) :
    i < sims.length := by
  rw [topIndices, List.mem_reverse] at hi
  have h2 := (argsort_perm (fun i => sims.getD i 0) (List.range sims.length)).mem_iff.1
    (List.mem_of_mem_drop hi)
  exact List.mem_range.1 h2

/-- The selected index list is sorted: scores descending, ties by descending
original index. -/
theorem topIndices_pairwise (sims : List ℝ) (k : Nat) :
    (topIndices sims k).Pairwise (fun a b => RankRel (fun i => sims.getD i 0) b a) := by
  rw [topIndices, List.pairwise_reverse]
  exact (argsort_pairwise _ _ (List.pairwise_lt_range _)).sublist (List.drop_sublist _ _)

/-- Scores at valid positions are entries of the score list. -/
theorem getD_mem_of_lt {sims : List ℝ} {i : Nat} (hi : i < sims.length) :
    sims.getD i 0 ∈ sims := by
  rw [List.getD_eq_getElem sims 0 hi]
  exact List.getElem_mem hi

/-- The ranked result has exactly `min k n` entries. -/
theorem searchRes_length (sims : List ℝ) (k : Nat) :
    (searchRes sims k).length = min k sims.length := by
  rw [searchRes, List.length_map, topIndices_length]

/-- The ranked result is sorted by score descending, equal scores ordered by
descending original document position. -/
theorem searchRes_pairwise (sims : List ℝ) (k : Nat) :
    (searchRes sims k).Pairwise
      (fun p q2 => q2.2 < p.2 ∨ (p.2 = q2.2 ∧ q2.1 < p.1)) := by
  rw [searchRes, List.pairwise_map]
  refine (topIndices_pairwise sims k).imp ?_
  intro a b h
  rcases h with h | ⟨h, hab⟩
  · exact Or.inl h
  · exact Or.inr ⟨h.symm, hab⟩

/-- Every ranked entry has a valid position carrying that position's score,
which is one of the similarity scores. -/
theorem searchRes_mem {sims : List ℝ} {k : Nat} {p : Nat × ℝ} (hp : p ∈ searchRes sims k) :
    p.1 < sims.length ∧ p.2 = sims.getD p.1 0 ∧ p.2 ∈ sims := by
  rw [searchRes] at hp
  rcases List.mem_map.1 hp with ⟨i, hi, rfl⟩
  have h1 := topIndices_mem hi
  exact ⟨h1, rfl, getD_mem_of_lt h1⟩

/-- Dropping strictly fewer elements than the length keeps the last element. -/
theorem getLast?_drop_of_lt {α : Type} (l : List α) (m : Nat) (h : m < l.length) :
    (l.drop m).getLast? = l.getLast? := by
  rw [List.getLast?_eq_getElem?, List.getLast?_eq_getElem?, List.getElem?_drop,
    List.length_drop]
  congr 1
  omega

/-- The first ranked entry exists and carries the maximal similarity score
whenever `1 ≤ k ≤ n`. -/
theorem searchRes_head_max (sims : List ℝ) (k : Nat) (hk : 1 ≤ k) (hkn : k ≤ sims.length) :
    ∃ p : Nat × ℝ, (searchRes sims k).head? = some p ∧ p.1 < sims.length ∧
      p.2 = sims.getD p.1 0 ∧ ∀ s ∈ sims, s ≤ p.2 := by
  set score : Nat → ℝ := fun i => sims.getD i 0 with hscore
  set n := sims.length with hn
  set A := argsort score (List.range n) with hA
  have hAlen : A.length = n := argsort_range_length score n
  have hmlt : n - k < n := by omega
  have hAne : A ≠ [] := by
    intro hnil
    rw [hnil] at hAlen
    simp at hAlen
    omega
  obtain ⟨z, hz⟩ : ∃ z, A.getLast? = some z := by
    have h1 : n - 1 < A.length := by omega
    refine ⟨A[n - 1], ?_⟩
    rw [List.getLast?_eq_getElem?, hAlen]
    exact List.getElem?_eq_getElem h1
  have hzmem : z ∈ A := by
    rw [List.getLast?_eq_getElem?] at hz
    exact List.getElem?_mem hz
  have hzlt : z < n := List.mem_range.1 ((argsort_perm score (List.range n)).mem_iff.1 hzmem)
  have hhead : (topIndices sims k).head? = some z := by
    rw [topIndices, List.head?_reverse, ← hscore, ← hn, ← hA,
      getLast?_drop_of_lt A (n - k) (by omega), hz]
  refine ⟨(z, score z), ?_, hzlt, rfl, ?_⟩
  · rw [searchRes, List.head?_map, hhead]
    rfl
  · intro s hs
    rcases List.mem_iff_getElem.1 hs with ⟨i, hi, rfl⟩
    have hiA : i ∈ A := (argsort_perm score (List.range n)).mem_iff.2 (List.mem_range.2 hi)
    have hsorted : A.Pairwise (fun a b => score a ≤ score b) :=
      (argsort_pairwise score (List.range n) (List.pairwise_lt_range n)).imp
        (fun h => h.score_le)
    have h9 : sims.getD i 0 ≤ sims.getD z 0 := score_le_of_getLast? score A hsorted hz i hiA
    rw [List.getD_eq_getElem sims 0 hi] at h9
    exact h9

/-- Length of a raw TF-IDF vector. -/
theorem rawVec_length (vocab : List String) (idfs : List ℝ) (d : List String) :
    (rawVec vocab idfs d).length = min vocab.length idfs.length := by
  simp [rawVec]

/-- Length of the idf vector. -/
theorem idfVector_length (tdocs : List (List String)) (vocab : List String) :
    (idfVector tdocs vocab).length = vocab.length := by
  simp [idfVector]

/-- A vectorized token sequence has one entry per vocabulary term when the
idf vector does. -/
theorem transform_length {idfs : List ℝ} (vocab : List String) (d : List String)
    (h : idfs.length = vocab.length) :
    (transform vocab idfs d).length = vocab.length := by
  rw [transform, normalize_length, rawVec_length, h, min_self]

/-- A token sequence sharing no term with the vocabulary has an all-zero raw
TF-IDF vector. -/
theorem rawVec_zero_of_disjoint {vocab d : List String} (idfs : List ℝ)
    (h : ∀ t ∈ d, t ∉ vocab) : ∀ x ∈ rawVec vocab idfs d, x = 0 := by
  intro x hx
  simp only [rawVec] at hx
  rcases List.mem_iff_getElem.1 hx with ⟨i, hi, rfl⟩
  rw [List.getElem_zipWith]
  simp only [List.length_zipWith, lt_min_iff] at hi
  have hnot : vocab[i] ∉ d := fun hmem => h _ hmem (List.getElem_mem hi.1)
  rw [List.count_eq_zero.2 hnot]
  simp

/-- The first-seen accumulator never shrinks. -/
theorem distinctFirstSeen_foldl_length (l : List String) :
    ∀ acc : List String,
      acc.length ≤ (l.foldl (fun acc x => if x ∈ acc then acc else acc ++ [x]) acc).length := by
  induction l with
  | nil => intro acc; exact le_rfl
  | cons x t ih =>
    intro acc
    rw [List.foldl_cons]
    refine le_trans ?_ (ih _)
    by_cases h : x ∈ acc
    · simp [h]
    · simp [h]

/-- First-seen deduplication is empty exactly on the empty list. -/
theorem distinctFirstSeen_eq_nil_iff (l : List String) :
    distinctFirstSeen l = [] ↔ l = [] := by
  constructor
  · intro h
    cases l with
    | nil => rfl
    | cons x t =>
      exfalso
      have h1 := distinctFirstSeen_foldl_length t [x]
      have h2 : distinctFirstSeen (x :: t) =
          List.foldl (fun acc y => if y ∈ acc then acc else acc ++ [y]) [x] t := by
        rw [distinctFirstSeen, List.foldl_cons]
        simp
      rw [h2] at h
      rw [h] at h1
      simp at h1
  · intro h
    rw [h]
    rfl

/-- The vocabulary is empty exactly when the tokenized corpus has no tokens
at all. -/
theorem vocabulary_eq_nil_iff (tdocs : List (List String)) :
    vocabulary tdocs = [] ↔ tdocs.flatten = [] := by
  constructor
  · intro h
    have hlen := sortBy_length (fun a b => decide (a ≤ b)) (vocabKept tdocs)
    rw [← vocabulary, h] at hlen
    simp only [List.length_nil] at hlen
    by_cases hc : (distinctFirstSeen tdocs.flatten).length ≤ maxFeatures
    · rw [vocabKept, if_pos hc] at hlen
      exact (distinctFirstSeen_eq_nil_iff _).1 (List.length_eq_zero.1 hlen.symm)
    · exfalso
      rw [vocabKept, if_neg hc, List.length_take, sortBy_length] at hlen
      have hm : (0 : Nat) < maxFeatures := by norm_num [maxFeatures]
      omega
  · intro h
    rw [vocabulary, vocabKept]
    simp [distinctFirstSeen, h, maxFeatures, sortBy]

/-- Characterization of a successful index build: the fields are exactly the
frozen vocabulary, idf weights and document matrix of the corpus. -/
theorem createTfidfIndex_ok {tok : String → List String} {docs : List String}
    {idx : TfIdfIndex} (h : createTfidfIndex tok docs = .ok idx) :
    idx.vocab = vocabOf tok docs ∧ idx.idfs = idfsOf tok docs ∧
      idx.matrix = matrixOf tok docs := by
  rw [createTfidfIndex] at h
  split_ifs at h
  injection h with h
  rw [← h]
  exact ⟨rfl, rfl, rfl⟩

/-- When every query token is out of vocabulary, every similarity score of
the pipeline is `0`. -/
theorem simsFor_all_zero {tok : String → List String} {docs : List String} {q : String}
    (hoov : ∀ t ∈ tok q, t ∉ vocabOf tok docs) :
    ∀ s ∈ simsFor tok docs q, s = 0 := by
  intro s hs
  rcases List.mem_map.1 hs with ⟨dv, _, rfl⟩
  refine cosineSim_zero_of_zero (Or.inr ?_)
  intro y hy
  rcases List.mem_map.1 hy with ⟨x, hx, rfl⟩
  rw [rawVec_zero_of_disjoint _ hoov x hx, zero_div]

/-! ### Concrete evaluations used by witnesses and counterexamples -/

/-- For a one-document corpus and `topK = 1`, the ranked output is a single
pair at position `0`. -/
theorem searchOutput_single (q : String) :
    ∃ y : ℝ, searchOutput tokenizeEx ["cat"] q 1 = [(0, y)] := ⟨_, rfl⟩

/-- Two identical documents produce two identical similarity scores. -/
theorem sims_pair :
    ∃ x : ℝ, simsFor tokenizeEx ["cat", "cat"] "cat" = [x, x] := ⟨_, rfl⟩

/-- Ranking two equal scores returns position `1` before position `0`: the
stable ascending argsort keeps `[0, 1]`, and the final reversal flips it. -/
theorem searchRes_two_equal (x : ℝ) : searchRes [x, x] 2 = [(1, x), (0, x)] := by
  have hdec : (decide (x ≤ x)) = true := decide_eq_true le_rfl
  have hr : List.range 2 = [0, 1] := rfl
  have hsort : argsort (fun i => ([x, x] : List ℝ).getD i 0) [0, 1] = [0, 1] := by
    simp only [argsort, sortBy, insertSorted, List.getD_cons_zero, List.getD_cons_succ]
    simp [hdec, List.getD]
  have hlen : ([x, x] : List ℝ).length = 2 := rfl
  rw [searchRes, topIndices, hlen, hr, hsort]
  rfl

/-! ### The claims -/

/-- C1, amended: the ranked output of `search` is sorted by score descending
(every later entry's score is at most every earlier entry's), but the claimed
ascending-position order of equal scores does not hold — `argsort` gives no
tie-order guarantee in general (numpy's default sort is unstable), and at the
counterexample below the trailing `[::-1]` of script line 83 puts the tied
positions in descending order. Only the tie-order-invariant descending-score
property is asserted, so it holds for any correct ascending sort, stable or
not. -/
theorem searchOutput_scores_descending (tok : String → List String) (docs : List String)
    (q : String) (topK : ℤ) :
    (searchOutput tok docs q topK).Pairwise (fun p q2 => q2.2 ≤ p.2) := by
  refine (searchRes_pairwise (simsFor tok docs q) (min topK.toNat docs.length)).imp ?_
  intro a b h
  rcases h with h | ⟨h, _⟩
  · exact le_of_lt h
  · exact le_of_eq h.symm

/-- C1, counterexample: on the two-document corpus `["cat", "cat"]` with
query `"cat"` both scores are equal, and the output lists position `1`
before position `0` — not ascending position order as claimed. At two
elements numpy's default sort is in its insertion-sort regime and is stable,
so the stable model computes exactly what the program does here. -/
theorem searchOutput_ties_ascending_false :
    ¬ (searchOutput tokenizeEx ["cat", "cat"] "cat" 2).Pairwise
      (fun p q2 => q2.2 < p.2 ∨ (p.2 = q2.2 ∧ p.1 < q2.1)) := by
  obtain ⟨x, hx⟩ := sims_pair
  have h1 : searchOutput tokenizeEx ["cat", "cat"] "cat" 2 = [(1, x), (0, x)] := by
    rw [searchOutput, hx,
      show min (Int.toNat 2) (["cat", "cat"] : List String).length = 2 from rfl,
      searchRes_two_equal]
  rw [h1]
  intro h
  have hrel := (List.pairwise_cons.1 h).1 (0, x) (List.mem_cons_self _ _)
  rcases hrel with h2 | ⟨_, h3⟩
  · exact lt_irrefl x h2
  · simp at h3

/-- C2: for a non-empty corpus, a non-blank query and `topK ≥ 1`, the ranked
output has length exactly `min(topK, documentCount)`. -/
theorem searchOutput_length_eq_min (tok : String → List String) (docs : List String)
    (q : String) (topK : ℤ) (hd : docs ≠ []) (hq : pyStrip q ≠ "") (hk : 1 ≤ topK) :
    (searchOutput tok docs q topK).length = min topK.toNat docs.length := by
  rw [searchOutput, searchRes_length, simsFor_length]
  omega

/-- C2, witness: a one-document corpus with `topK = 2` returns exactly
`min(2, 1) = 1` result. -/
theorem searchOutput_length_eq_min_witness :
    (["cat"] : List String) ≠ [] ∧ pyStrip "cat" ≠ "" ∧ (1 : ℤ) ≤ 2 ∧
      (searchOutput tokenizeEx ["cat"] "cat" 2).length =
        min (Int.toNat 2) (["cat"] : List String).length :=
  ⟨by simp, by decide, by norm_num,
    searchOutput_length_eq_min tokenizeEx ["cat"] "cat" 2 (by simp) (by decide) (by norm_num)⟩

/-- C3: every ranked entry has a score in `[0, 1]` and a position in
`[0, documentCount)`, and a zero vector on either side of the cosine
similarity yields similarity `0`. -/
theorem searchOutput_scores_in_unit_interval :
    (∀ (tok : String → List String) (docs : List String) (q : String) (topK : ℤ),
      ∀ p ∈ searchOutput tok docs q topK, 0 ≤ p.2 ∧ p.2 ≤ 1 ∧ p.1 < docs.length) ∧
    (∀ u v : List ℝ, ((∀ x ∈ u, x = 0) ∨ (∀ y ∈ v, y = 0)) → cosineSim u v = 0) := by
  constructor
  · intro tok docs q topK p hp
    rw [searchOutput] at hp
    have h := searchRes_mem hp
    have hb := simsFor_bounds tok docs q p.2 h.2.2
    refine ⟨hb.1, hb.2, ?_⟩
    have := h.1
    rwa [simsFor_length] at this
  · exact fun u v h => cosineSim_zero_of_zero h

/-- C3, witness: the single ranked entry of the corpus `["cat"]` under the
query `"cat"` has a score in `[0, 1]` and position `0 < 1`. -/
theorem searchOutput_scores_witness :
    0 ≤ ((searchOutput tokenizeEx ["cat"] "cat" 1).headD (0, 0)).2 ∧
      ((searchOutput tokenizeEx ["cat"] "cat" 1).headD (0, 0)).2 ≤ 1 ∧
      ((searchOutput tokenizeEx ["cat"] "cat" 1).headD (0, 0)).1 <
        (["cat"] : List String).length := by
  obtain ⟨y, hy⟩ := searchOutput_single "cat"
  have h := searchOutput_scores_in_unit_interval.1 tokenizeEx ["cat"] "cat" 1 (0, y)
    (by rw [hy]; exact List.mem_cons_self _ _)
  rw [hy]
  simpa using h

/-- C9: index construction and search are deterministic — equal corpora,
queries and limits produce equal vocabularies, idf weights, matrices, query
vectors, indices and ranked outputs. -/
theorem pipeline_deterministic (tok : String → List String) (docs1 docs2 : List String)
    (q1 q2 : String) (k1 k2 : ℤ) (hd : docs1 = docs2) (hq : q1 = q2) (hk : k1 = k2) :
    vocabOf tok docs1 = vocabOf tok docs2 ∧ idfsOf tok docs1 = idfsOf tok docs2 ∧
      matrixOf tok docs1 = matrixOf tok docs2 ∧
      queryVec tok docs1 q1 = queryVec tok docs2 q2 ∧
      createTfidfIndex tok docs1 = createTfidfIndex tok docs2 ∧
      runSearch tok docs1 q1 k1 = runSearch tok docs2 q2 k2 := by
  subst hd
  subst hq
  subst hk
  exact ⟨rfl, rfl, rfl, rfl, rfl, rfl⟩

/-- C9, witness: the determinism theorem applied at a concrete corpus,
query and limit. -/
theorem pipeline_deterministic_witness :
    (["cat"] : List String) = ["cat"] ∧
      runSearch tokenizeEx ["cat"] "cat" 1 = runSearch tokenizeEx ["cat"] "cat" 1 :=
  ⟨rfl, (pipeline_deterministic tokenizeEx ["cat"] ["cat"] "cat" "cat" 1 1
    rfl rfl rfl).2.2.2.2.2⟩

/-- C10: for a non-empty corpus and `topK ≥ 1` the first ranked entry exists,
its score is the maximum cosine similarity over all documents, and that
first score is `0` exactly when every document's similarity is `0` — so the
no-relevant-results branch of `main` (line 157) fires exactly on all-zero
similarities. -/
theorem first_score_is_max (tok : String → List String) (docs : List String) (q : String)
    (topK : ℤ) (hd : docs ≠ []) (hk : 1 ≤ topK) :
    ∃ p : Nat × ℝ, (searchOutput tok docs q topK).head? = some p ∧
      p.2 ∈ simsFor tok docs q ∧ (∀ s ∈ simsFor tok docs q, s ≤ p.2) ∧
      (p.2 = 0 ↔ ∀ s ∈ simsFor tok docs q, s = 0) := by
  have hn : 0 < docs.length := List.length_pos.2 hd
  have hsl : (simsFor tok docs q).length = docs.length := simsFor_length tok docs q
  have hk1 : 1 ≤ min topK.toNat docs.length := by omega
  have hk2 : min topK.toNat docs.length ≤ (simsFor tok docs q).length := by omega
  obtain ⟨p, hhead, hlt, hgetD, hmax⟩ :=
    searchRes_head_max (simsFor tok docs q) (min topK.toNat docs.length) hk1 hk2
  refine ⟨p, by rw [searchOutput]; exact hhead, ?_, hmax, ?_, ?_⟩
  · rw [hgetD]
    exact getD_mem_of_lt hlt
  · intro h0 s hs
    have hb := (simsFor_bounds tok docs q s hs).1
    have := hmax s hs
    linarith [h0 ▸ this]
  · intro hzero
    rw [hgetD]
    exact hzero _ (getD_mem_of_lt hlt)

/-- C10, witness: for the corpus `["cat"]` and query `"cat"`, the similarity
of document `0` is bounded by the first returned score. -/
theorem first_score_is_max_witness :
    (["cat"] : List String) ≠ [] ∧ (1 : ℤ) ≤ 1 ∧
      (simsFor tokenizeEx ["cat"] "cat").getD 0 0 ≤
        ((searchOutput tokenizeEx ["cat"] "cat" 1).headD (0, 0)).2 := by
  refine ⟨by simp, le_refl 1, ?_⟩
  obtain ⟨p, h1, _, h3, _⟩ := first_score_is_max tokenizeEx ["cat"] "cat" 1 (by simp) (le_refl 1)
  have hm : (simsFor tokenizeEx ["cat"] "cat").getD 0 0 ∈ simsFor tokenizeEx ["cat"] "cat" :=
    getD_mem_of_lt (by rw [simsFor_length]; norm_num)
  have h5 := h3 _ hm
  cases hout : searchOutput tokenizeEx ["cat"] "cat" 1 with
  | nil => rw [hout] at h1; simp at h1
  | cons a t =>
    rw [hout] at h1
    simp only [List.head?_cons, Option.some.injEq] at h1
    rw [List.headD_cons, h1]
    exact h5

/-- C6, amended: the pipeline fails with `InvalidTopKError` whenever
`topK < 1`; when `topK ≥ 1` it fails with `EmptyQueryError` whenever the
query trims to the empty string. Both checks happen before the index or any
similarity is computed (the result is the same for every corpus). -/
theorem validation_order (tok : String → List String) (docs : List String) (q : String)
    (topK : ℤ) :
    (topK < 1 → runSearch tok docs q topK = .error .invalidTopK) ∧
    (1 ≤ topK → pyStrip q = "" → runSearch tok docs q topK = .error .emptyQuery) := by
  constructor
  · intro h
    rw [runSearch, if_pos h]
  · intro hk hq
    rw [runSearch, if_neg (by omega), if_pos hq]

/-- C6, counterexample: for `topK = 0` and the blank query `"   "` the
pipeline fails with `InvalidTopKError`, not `EmptyQueryError` — so a blank
query does not always produce `EmptyQueryError`. -/
theorem validation_emptyQuery_whenever_false :
    pyStrip "   " = "" ∧
      runSearch tokenizeEx ["cat"] "   " 0 = .error .invalidTopK ∧
      (Except.error AppError.invalidTopK : Except AppError (List (Nat × ℝ))) ≠
        .error .emptyQuery :=
  ⟨rfl, rfl, fun h => AppError.noConfusion (Except.error.inj h)⟩

/-- C6, witness: both validation failures observed at concrete inputs, in
their precedence order. -/
theorem validation_order_witness :
    ((0 : ℤ) < 1 ∧ runSearch tokenizeEx ["cat"] "cat" 0 = .error .invalidTopK) ∧
    ((1 : ℤ) ≤ 1 ∧ pyStrip " " = "" ∧
      runSearch tokenizeEx ["cat"] " " 1 = .error .emptyQuery) := by
  constructor
  · exact ⟨by norm_num, (validation_order tokenizeEx ["cat"] "cat" 0).1 (by norm_num)⟩
  · exact ⟨le_refl 1, rfl, (validation_order tokenizeEx ["cat"] " " 1).2 (le_refl 1) rfl⟩

/-- C7: a query whose tokens are all absent from the frozen vocabulary still
succeeds, and every returned score is `0`. -/
theorem oov_query_zero_scores (tok : String → List String) (docs : List String) (q : String)
    (topK : ℤ) (hk : 1 ≤ topK) (hq : pyStrip q ≠ "") (hd : docs ≠ [])
    (hv : vocabOf tok docs ≠ []) (hoov : ∀ t ∈ tok q, t ∉ vocabOf tok docs) :
    runSearch tok docs q topK = .ok (searchOutput tok docs q topK) ∧
      ∀ p ∈ searchOutput tok docs q topK, p.2 = 0 := by
  constructor
  · rw [runSearch, if_neg (by omega), if_neg hq, createTfidfIndex,
      if_neg (by simp [hd]), if_neg (by simp [hv])]
  · intro p hp
    rw [searchOutput] at hp
    exact simsFor_all_zero hoov _ (searchRes_mem hp).2.2

/-- C7, witness: the out-of-vocabulary query `"dog"` against the corpus
`["cat"]` succeeds and returns score `0`. -/
theorem oov_query_zero_scores_witness :
    runSearch tokenizeEx ["cat"] "dog" 1 = .ok (searchOutput tokenizeEx ["cat"] "dog" 1) ∧
      ((searchOutput tokenizeEx ["cat"] "dog" 1).headD (0, 0)).2 = 0 := by
  have h := oov_query_zero_scores tokenizeEx ["cat"] "dog" 1 (le_refl 1) (by decide)
    (by simp) (by decide) (by decide)
  refine ⟨h.1, ?_⟩
  obtain ⟨y, hy⟩ := searchOutput_single "dog"
  rw [hy, List.headD_cons]
  exact h.2 (0, y) (by rw [hy]; exact List.mem_cons_self _ _)

/-- C8: index construction fails with `EmptyCorpusError` on an empty corpus
and with `EmptyVocabularyError` on a non-empty corpus whose tokenized
documents yield no usable terms (empty vocabulary); the vocabulary is empty
exactly when tokenization and filtering left no tokens at all. -/
theorem index_build_errors (tok : String → List String) (docs : List String) :
    (docs = [] → createTfidfIndex tok docs = .error .emptyCorpus) ∧
    (docs ≠ [] → vocabOf tok docs = [] →
      createTfidfIndex tok docs = .error .emptyVocabulary) ∧
    (vocabOf tok docs = [] ↔ (tdocsOf tok docs).flatten = []) := by
  refine ⟨?_, ?_, vocabulary_eq_nil_iff (tdocsOf tok docs)⟩
  · intro h
    subst h
    rfl
  · intro hd hv
    rw [createTfidfIndex, if_neg (by simp [hd]), if_pos (by simp [hv])]

/-- C8, witness: the empty corpus gives `EmptyCorpusError`; the corpus
`["the"]`, all of whose tokens are filtered as stop words, gives
`EmptyVocabularyError`. -/
theorem index_build_errors_witness :
    createTfidfIndex tokenizeEx [] = .error .emptyCorpus ∧
      createTfidfIndex tokenizeEx ["the"] = .error .emptyVocabulary :=
  ⟨(index_build_errors tokenizeEx []).1 rfl,
    (index_build_errors tokenizeEx ["the"]).2.1 (by simp) (by decide)⟩

/-- Smoothed idf of a term occurring in the single document of a
one-document corpus: `ln(2/2) + 1 = 1`. -/
theorem idfVal_one : idfVal 1 1 = 1 := by
  rw [idfVal]
  norm_num [Real.log_one]

/-- The idf vector of the corpus `["cat"]`. -/
theorem idfsOf_cat : idfsOf tokenizeEx ["cat"] = [(1 : ℝ)] := by
  show [idfVal 1 1] = [(1 : ℝ)]
  rw [idfVal_one]

/-- The document vector of `"cat"` in the corpus `["cat"]` is the unit
vector `[1]`. -/
theorem transform_cat :
    transform (vocabOf tokenizeEx ["cat"]) (idfsOf tokenizeEx ["cat"]) (tokenizeEx "cat") =
      [(1 : ℝ)] := by
  rw [idfsOf_cat, show vocabOf tokenizeEx ["cat"] = ["cat"] from rfl,
    show tokenizeEx "cat" = ["cat"] from rfl, transform]
  have hraw : rawVec ["cat"] [(1 : ℝ)] ["cat"] = [(1 : ℝ)] := by
    rw [rawVec]
    simp [show List.count "cat" ["cat"] = 1 from rfl]
  rw [hraw]
  have hnorm : l2norm [(1 : ℝ)] = 1 := by
    rw [l2norm, l2normSq]
    simp
  rw [normalize, hnorm]
  simp

/-- C4: every document vector of a successfully built index either has
Euclidean norm `1` (whenever it has a non-zero entry) or is the zero vector;
a document sharing no term with the vocabulary vectorizes to the zero
vector, and the build still succeeds (no error). -/
theorem docVectors_unit_or_zero (tok : String → List String) (docs : List String)
    (idx : TfIdfIndex) (h : createTfidfIndex tok docs = .ok idx) :
    (∀ dv ∈ idx.matrix, ((∃ x ∈ dv, x ≠ 0) → l2norm dv = 1) ∧
      (l2norm dv = 1 ∨ dv = List.replicate idx.vocab.length 0)) ∧
    (∀ d ∈ tdocsOf tok docs, (∀ t ∈ d, t ∉ idx.vocab) →
      transform idx.vocab idx.idfs d = List.replicate idx.vocab.length 0) := by
  obtain ⟨hv, hi, hm⟩ := createTfidfIndex_ok h
  have hlen : idx.idfs.length = idx.vocab.length := by
    rw [hv, hi, idfsOf, idfVector_length]
  constructor
  · intro dv hdv
    rw [hm, matrixOf] at hdv
    rcases List.mem_map.1 hdv with ⟨d, _, rfl⟩
    have hone : (∃ x ∈ transform (vocabOf tok docs) (idfsOf tok docs) d, x ≠ 0) →
        l2norm (transform (vocabOf tok docs) (idfsOf tok docs) d) = 1 := by
      rintro ⟨x, hx, hx0⟩
      rw [transform] at hx ⊢
      rcases List.mem_map.1 hx with ⟨x0, hx0mem, rfl⟩
      refine l2norm_normalize_of_ne_zero ⟨x0, hx0mem, ?_⟩
      intro h0
      exact hx0 (by rw [h0, zero_div])
    refine ⟨hone, ?_⟩
    by_cases hall : ∀ x ∈ rawVec (vocabOf tok docs) (idfsOf tok docs) d, x = 0
    · right
      rw [transform, normalize_of_all_zero hall, rawVec_length]
      congr 1
      rw [hv, idfsOf, idfVector_length, min_self]
    · left
      push_neg at hall
      obtain ⟨x, hx, hx0⟩ := hall
      have hS : l2norm (rawVec (vocabOf tok docs) (idfsOf tok docs) d) ≠ 0 := by
        rw [Ne, l2norm_eq_zero_iff]
        exact fun hzz => hx0 (hzz x hx)
      refine hone ⟨x / l2norm (rawVec (vocabOf tok docs) (idfsOf tok docs) d), ?_,
        div_ne_zero hx0 hS⟩
      rw [transform, normalize]
      exact List.mem_map.2 ⟨x, hx, rfl⟩
  · intro d _ hdisj
    have hzero := rawVec_zero_of_disjoint idx.idfs hdisj
    rw [transform, normalize_of_all_zero hzero, rawVec_length, hlen, min_self]

/-- C4, witness: the document vector of `"cat"` in the index built from the
corpus `["cat"]` has Euclidean norm exactly `1`. -/
theorem docVectors_unit_or_zero_witness :
    l2norm (transform (vocabOf tokenizeEx ["cat"]) (idfsOf tokenizeEx ["cat"])
      (tokenizeEx "cat")) = 1 := by
  have hidx : createTfidfIndex tokenizeEx ["cat"] =
      .ok ⟨vocabOf tokenizeEx ["cat"], idfsOf tokenizeEx ["cat"],
        matrixOf tokenizeEx ["cat"]⟩ := rfl
  have h := (docVectors_unit_or_zero tokenizeEx ["cat"] _ hidx).1
    (transform (vocabOf tokenizeEx ["cat"]) (idfsOf tokenizeEx ["cat"]) (tokenizeEx "cat"))
    (List.mem_cons_self _ _)
  refine h.1 ⟨1, ?_, one_ne_zero⟩
  rw [transform_cat]
  exact List.mem_cons_self _ _

/-- C5: each entry of the idf vector of a successfully built index equals
`ln((1 + N) / (1 + df)) + 1` for its term's document frequency `df` in the
`N`-document corpus, and every entry is strictly positive; the smoothed
formula is strictly positive for every `df ≤ N`, the extremes `df = N` and
`df = 0` included. -/
theorem idf_formula_and_positivity (tok : String → List String) (docs : List String)
    (idx : TfIdfIndex) (h : createTfidfIndex tok docs = .ok idx) :
    idx.idfs.length = idx.vocab.length ∧
    (∀ i, i < idx.vocab.length →
      idx.idfs.getD i 0 = Real.log ((1 + (docs.length : ℝ)) /
        (1 + (docFreq (tdocsOf tok docs) (idx.vocab.getD i "") : ℝ))) + 1 ∧
      0 < idx.idfs.getD i 0) ∧
    (∀ n df : Nat, df ≤ n → 0 < idfVal n df) := by
  obtain ⟨hv, hi, _⟩ := createTfidfIndex_ok h
  have hlen : idx.idfs.length = idx.vocab.length := by
    rw [hv, hi, idfsOf, idfVector_length]
  refine ⟨hlen, ?_, fun n df hdf => lt_of_lt_of_le zero_lt_one (one_le_idfVal hdf)⟩
  intro i hilt
  have hilt2 : i < (vocabOf tok docs).length := by rw [← hv]; exact hilt
  have hval : idx.idfs.getD i 0 =
      idfVal (tdocsOf tok docs).length
        (docFreq (tdocsOf tok docs) ((vocabOf tok docs).getD i "")) := by
    rw [hi, idfsOf, idfVector,
      List.getD_eq_getElem _ _ (by rw [List.length_map]; exact hilt2),
      List.getElem_map, List.getD_eq_getElem _ _ hilt2]
  have hlen2 : (tdocsOf tok docs).length = docs.length := by simp [tdocsOf]
  constructor
  · rw [hval, idfVal, hv, hlen2]
  · rw [hval]
    exact lt_of_lt_of_le zero_lt_one (one_le_idfVal (List.countP_le_length _))

/-- C5, witness: the idf entry of the term `"cat"` in the corpus `["cat"]`
satisfies the smoothed formula and is strictly positive. -/
theorem idf_formula_witness :
    (0 : Nat) < (vocabOf tokenizeEx ["cat"]).length ∧
    (idfsOf tokenizeEx ["cat"]).getD 0 0 =
      Real.log ((1 + ((["cat"] : List String).length : ℝ)) /
        (1 + (docFreq (tdocsOf tokenizeEx ["cat"])
          ((vocabOf tokenizeEx ["cat"]).getD 0 "") : ℝ))) + 1 ∧
    0 < (idfsOf tokenizeEx ["cat"]).getD 0 0 := by
  have hidx : createTfidfIndex tokenizeEx ["cat"] =
      .ok ⟨vocabOf tokenizeEx ["cat"], idfsOf tokenizeEx ["cat"],
        matrixOf tokenizeEx ["cat"]⟩ := rfl
  have h := (idf_formula_and_positivity tokenizeEx ["cat"] _ hidx).2.1 0 (by decide)
  exact ⟨by decide, h.1, h.2⟩

end TfIdf
